import Mathlib

/-!
# Verification of `dentls.c`

A shallow embedding of the `dentls` directory-lister/deleter and proofs of
its specification claims.  The program:

* validates its single positional argument (an absolute path) and the
  `DENTLS_DELETE` / `DENTLS_PROGRESS` environment variables;
* enumerates a directory with repeated `getdents` calls, each batch read
  into a fresh buffer, skipping `.` and `..` and inserting every
  `DT_REG`-typed record name into a binary search tree (`tsearch` with a
  `strcmp` comparator), counting every such record in `totalfiles`;
* reports `Total files` once on stderr, then `twalk`s the tree with a
  callback that acts (print to stdout, or `unlink`) only at the `leaf` and
  `endorder` visitation moments, incrementing `delete_count` per action,
  aborting with exit 1 when an `unlink` fails, and optionally emitting
  progress markers on stderr;
* prints `Done` on stderr and tears down.

Names follow the C source (`strcmp`, `compare_fnames`, `tsearch`, `twalk`,
`walk_tree`, `linux_dirent`, `DT_REG`, `totalfiles`, `delete_count`).
-/

namespace Dentls

/-- C `strcmp` on character lists, normalised to `-1`, `0`, `1`
(only the sign of the C result is ever consumed). -/
def strcmpChars : List Char → List Char → Int
  | [], [] => 0
  | [], _ :: _ => -1
  | _ :: _, [] => 1
  | c :: cs, d :: ds => if c < d then -1 else if d < c then 1 else strcmpChars cs ds

/-- C `strcmp` on strings (names contain no NUL bytes, so C string
comparison is comparison of the character sequences). -/
def strcmp (a b : String) : Int := strcmpChars a.data b.data

/-- `compare_fnames` from dentls.c: the `tsearch` comparator, a plain
`strcmp` of the two names. -/
def compare_fnames (key1 key2 : String) : Int := strcmp key1 key2

/-- The binary search tree built by `tsearch` (`<search.h>`).  The program
stores one file name per node; the tree's shape comes from insertion with
the `compare_fnames` comparator.  (glibc's `tsearch` may rebalance the tree
internally; the claims proved here depend only on tree membership and on
the walk acting once per node, both of which are rebalancing-invariant, so
the plain non-rebalancing insertion is modelled.) -/
inductive Tree where
  | nil : Tree
  | node (left : Tree) (key : String) (right : Tree) : Tree
deriving DecidableEq, Repr

/-- Membership of a name in the tree (structural: the walk visits every
node; the program never performs lookups). -/
def memT : Tree → String → Bool
  | .nil, _ => false
  | .node l k r, n => n == k || memT l n || memT r n

/-- `tsearch(name, &tree, compare_fnames)`: descend by comparator sign;
when an equal key is found, return the existing node and leave the tree
unchanged; otherwise insert a fresh leaf at the located position. -/
def tsearch (t : Tree) (key : String) : Tree :=
  match t with
  | .nil => .node .nil key .nil
  | .node l k r =>
    if compare_fnames key k < 0 then .node (tsearch l key) k r
    else if 0 < compare_fnames key k then .node l k (tsearch r key)
    else .node l k r

/-- Every key in the tree satisfies the boolean predicate. -/
def allT (p : String → Bool) : Tree → Bool
  | .nil => true
  | .node l k r => p k && allT p l && allT p r

/-- The binary-search-tree invariant for the `compare_fnames` order:
every key in the left subtree compares below the node key and every key
in the right subtree compares above it. -/
def isBST : Tree → Bool
  | .nil => true
  | .node l k r =>
    allT (fun x => decide (strcmp x k < 0)) l &&
    allT (fun x => decide (strcmp k x < 0)) r &&
    isBST l && isBST r

/-- The four visitation moments of `twalk` (the `VISIT` enum from
`<search.h>`). -/
inductive VISIT where
  | preorder : VISIT
  | postorder : VISIT
  | endorder : VISIT
  | leaf : VISIT
deriving DecidableEq, Repr

/-- The sequence of visitation moments `twalk` presents to its callback:
a childless node is visited once at `leaf`; a node with at least one child
is visited at `preorder`, then its left subtree, then `postorder`, then its
right subtree, then `endorder`. -/
def twalkVisits : Tree → List (VISIT × String)
  | .nil => []
  | .node .nil k .nil => [(.leaf, k)]
  | .node l k r =>
    (.preorder, k) :: (twalkVisits l ++ (.postorder, k) :: twalkVisits r ++ [(.endorder, k)])

/-- The `switch` in `walk_tree`: the configured action fires at the `leaf`
and `endorder` moments and at no other (`default: return`). -/
def walk_tree_fires : VISIT → Bool
  | .leaf => true
  | .endorder => true
  | _ => false

/-- What `walk_tree` does with one visitation event: the node's name when
the action fires at that moment, nothing otherwise. -/
def actFilter (p : VISIT × String) : Option String :=
  if walk_tree_fires p.1 then some p.2 else none

/-- The names `walk_tree` acts on, in order: the visitation sequence
filtered to the moments at which the action fires. -/
def twalkActions (t : Tree) : List String :=
  (twalkVisits t).filterMap actFilter

/-- Postorder listing of the tree: both subtrees fully listed before the
node's own key. -/
def postorderList : Tree → List String
  | .nil => []
  | .node l k r => postorderList l ++ postorderList r ++ [k]

/-- One raw directory-entry record as delivered by `getdents`: the name and
the trailing type-tag byte read at `(char *)dent + d_reclen - 1`. -/
structure linux_dirent where
  d_name : String
  d_type : Nat
deriving DecidableEq, Repr

/-- `DT_REG` from `<dirent.h>`: the type tag of a regular file. -/
def DT_REG : Nat := 8

/-- The inner per-record step of the enumeration loop: skip `.` and `..`;
otherwise, if and only if the trailing type tag is `DT_REG`, `tsearch` the
name into the tree and bump `totalfiles`. -/
def processDent (st : Tree × Nat) (dent : linux_dirent) : Tree × Nat :=
  if strcmp "." dent.d_name = 0 ∨ strcmp ".." dent.d_name = 0 then st
  else if dent.d_type = DT_REG then (tsearch st.1 dent.d_name, st.2 + 1)
  else st

/-- The result of one `getdents` call: an error (`-1`), or a batch of raw
records read into a fresh buffer (`bufcount = 0` iff the batch is empty,
since every record occupies at least one byte). -/
inductive BatchResult where
  | err : BatchResult
  | batch (dents : List linux_dirent) : BatchResult
deriving DecidableEq, Repr

/-- The outer enumeration loop
(`while ((bufcount = syscall(SYS_getdents, ...)))`), threading the
`(tree, totalfiles)` state over the successive `getdents` results:
a `-1` result is fatal (`perror; exit(1)`, modelled as `.error ()`); a
zero-record result ends the loop (any later results are never requested);
a non-empty batch is folded record by record and the loop continues. -/
def getdentsLoop (st : Tree × Nat) : List BatchResult → Except Unit (Tree × Nat)
  | [] => .ok st
  | .err :: _ => .error ()
  | .batch ds :: rest =>
    if ds = [] then .ok st else getdentsLoop (ds.foldl processDent st) rest

/-- The raw records the program actually iterates over: the concatenation
of the non-empty batches delivered before the terminating zero-record
result (or before an error / end of the result list). -/
def enumeratedRecords : List BatchResult → List linux_dirent
  | [] => []
  | .err :: _ => []
  | .batch ds :: rest => if ds = [] then [] else ds ++ enumeratedRecords rest

/-- Status lines and diagnostics written to stderr, in order. -/
inductive Msg where
  | usageNoArg : Msg
  | usageHelp : Msg
  | modeErr : Msg
  | sysErr : Msg
  | getdentsErr : Msg
  | totalFiles (n : Nat) : Msg
  | performing (print_only : Bool) : Msg
  | progressDot : Msg
  | progressMajor (n : Nat) : Msg
  | unlinkFailed (name : String) : Msg
  | doneMsg : Msg
deriving DecidableEq, Repr

/-- `progress_interval_minor` from dentls.c. -/
def progress_interval_minor : Nat := 1000

/-- `progress_interval_major` from dentls.c. -/
def progress_interval_major : Nat := 50

/-- The progress block at the end of `walk_tree`: with progress enabled,
after `delete_count` reaches a multiple of `minor * major` print the
running total, else after a multiple of `minor` print a dot. -/
def progressMsgs (show_progress : Bool) (c : Nat) : List Msg :=
  if show_progress then
    if c % (progress_interval_minor * progress_interval_major) = 0 then [.progressMajor c]
    else if c % progress_interval_minor = 0 then [.progressDot]
    else []
  else []

/-- `walk_tree` replayed over the action sequence of the walk, threading
the filesystem, `delete_count`, and the output streams.  Per acted-on node:
in print mode write the name to stdout, otherwise `unlink` it (`fail`
injects the unlink result); `delete_count++`; a negative unlink result
prints the failing name and the system error and exits — modelled by the
final `Bool` (aborted) with nothing further processed; otherwise emit any
progress marker and continue.  Returns
(stdout lines, stderr messages, filesystem, `delete_count`, aborted). -/
def walkExec (print_only show_progress : Bool) (fail : String → Bool) :
    List String → List String → Nat →
    List String × List Msg × List String × Nat × Bool
  | [], fs, c => ([], [], fs, c, false)
  | n :: rest, fs, c =>
    let rc : Int := if print_only then 0 else if fail n then -1 else 0
    let fs1 : List String := if print_only then fs else if fail n then fs else fs.erase n
    let out1 : List String := if print_only then [n] else []
    let c1 := c + 1
    if rc < 0 then (out1, [.unlinkFailed n], fs1, c1, true)
    else
      match walkExec print_only show_progress fail rest fs1 c1 with
      | (outR, msgR, fsR, cR, ab) =>
        (out1 ++ outR, progressMsgs show_progress c1 ++ msgR, fsR, cR, ab)

/-- The externally observable inputs of one run: the first positional
argument, the two environment variables, whether the pre-enumeration
system calls succeed (`access`/`lstat`/`S_ISDIR`/`malloc`/`open`/`fchdir`,
each fatal on failure before any enumeration), the successive `getdents`
results, the regular files present in the directory, and the unlink
failure oracle. -/
structure Input where
  argv1 : Option String
  deleteEnv : Option String
  progressEnv : Option String
  sysOk : Bool
  batches : List BatchResult
  fs : List String
  fail : String → Bool

/-- The externally observable outcome of one run: stdout lines, stderr
messages, the exit status, the directory contents afterwards, and the
final `delete_count`. -/
structure RunOutcome where
  stdoutLines : List String
  stderrMsgs : List Msg
  exitCode : Int
  fsFinal : List String
  delete_count : Nat
deriving DecidableEq, Repr

/-- The `DENTLS_DELETE` check: unset keeps the default `print_only = 1`;
a set value must `strcmp` equal to `"delete"` to clear `print_only`, and
any other value is an explanatory error and exit 1. -/
def parseDeleteMode : Option String → Except Unit Bool
  | none => .ok true
  | some v => if strcmp v "delete" ≠ 0 then .error () else .ok false

/-- The run from after the argument and mode checks: `DENTLS_PROGRESS`
presence enables progress, the pre-enumeration system calls must succeed,
the directory is enumerated into the tree, `Total files` and the mode
announcement are printed, the tree is walked, and `Done` is printed unless
an unlink failure aborted the walk with exit 1. -/
def mainAfterChecks (inp : Input) (print_only : Bool) : RunOutcome :=
  let show_progress := inp.progressEnv.isSome
  if inp.sysOk then
    match getdentsLoop (.nil, 0) inp.batches with
    | .error _ => ⟨[], [.getdentsErr], 1, inp.fs, 0⟩
    | .ok (t, totalfiles) =>
      match walkExec print_only show_progress inp.fail (twalkActions t) inp.fs 0 with
      | (out, wmsgs, fs2, cnt, aborted) =>
        if aborted then
          ⟨out, [.totalFiles totalfiles, .performing print_only] ++ wmsgs, 1, fs2, cnt⟩
        else
          ⟨out, [.totalFiles totalfiles, .performing print_only] ++ wmsgs ++ [.doneMsg],
            0, fs2, cnt⟩
  else ⟨[], [.sysErr], 1, inp.fs, 0⟩

/-- `main` from dentls.c: reject a missing argument (exit 1); reject a
flag-shaped or non-absolute argument with usage text (return -1); reject a
malformed `DENTLS_DELETE` value (exit 1); then run the enumeration and the
walk. -/
def mainModel (inp : Input) : RunOutcome :=
  match inp.argv1 with
  | none => ⟨[], [.usageNoArg], 1, inp.fs, 0⟩
  | some p =>
    if p.data.head? = some '-' ∨ p.data.head? ≠ some '/' then
      ⟨[], [.usageHelp], -1, inp.fs, 0⟩
    else
      match parseDeleteMode inp.deleteEnv with
      | .error _ => ⟨[], [.modeErr], 1, inp.fs, 0⟩
      | .ok print_only => mainAfterChecks inp print_only

/-- A record survives the `.`/`..` skip and the `DT_REG` filter. -/
def keptRecord (d : linux_dirent) : Prop :=
  d.d_name ≠ "." ∧ d.d_name ≠ ".." ∧ d.d_type = DT_REG

instance (d : linux_dirent) : Decidable (keptRecord d) := by
  unfold keptRecord; infer_instance

/-- The stderr traffic of a print-mode walk: the progress markers emitted
after each of the successive visit counts. -/
def printProgressMsgs (sp : Bool) (c : Nat) : List String → List Msg
  | [] => []
  | _ :: rest => progressMsgs sp (c + 1) ++ printProgressMsgs sp (c + 1) rest

/-- Whether a stderr message is the `Total files` report line. -/
def isTotalMsg : Msg → Bool
  | .totalFiles _ => true
  | _ => false

/-- The names of the enumerated records that pass the `.`/`..` skip and
the `DT_REG` filter, in enumeration order. -/
def regNames (bs : List BatchResult) : List String :=
  (enumeratedRecords bs).filterMap fun d => if keptRecord d then some d.d_name else none

/-- An unlink oracle under which every removal succeeds. -/
def noFail : String → Bool := fun _ => false

/-- A concrete report-mode run: two regular files and a `.` record split
over two non-empty batches, terminated by a zero-record batch. -/
def inpReport : Input :=
  { argv1 := some "/d", deleteEnv := none, progressEnv := none, sysOk := true,
    batches := [.batch [⟨"b", 8⟩, ⟨".", 4⟩], .batch [⟨"a", 8⟩], .batch []],
    fs := ["a", "b"], fail := noFail }

/-- The tree `inpReport`'s enumeration builds: `"b"` inserted first,
`"a"` second. -/
def treeReport : Tree := .node (.node .nil "a" .nil) "b" .nil

/-- The same directory as `inpReport` but with a different path, progress
enabled, a different filesystem view and a different unlink oracle. -/
def inpReport2 : Input :=
  { argv1 := some "/e", deleteEnv := none, progressEnv := some "1", sysOk := true,
    batches := [.batch [⟨"b", 8⟩, ⟨".", 4⟩], .batch [⟨"a", 8⟩], .batch []],
    fs := [], fail := fun _ => true }

/-- A concrete report-mode run whose enumeration delivers the same
regular-file name twice. -/
def inpDup : Input :=
  { argv1 := some "/d", deleteEnv := none, progressEnv := none, sysOk := true,
    batches := [.batch [⟨"a", 8⟩, ⟨"a", 8⟩]], fs := [], fail := noFail }

/-- A concrete destructive run over files `"a"` and `"b"` in which the
unlink of `"a"` fails. -/
def inpDelete : Input :=
  { argv1 := some "/d", deleteEnv := some "delete", progressEnv := none, sysOk := true,
    batches := [.batch [⟨"a", 8⟩, ⟨"b", 8⟩]], fs := ["a", "b"], fail := fun n => n == "a" }

/-- The tree `inpDelete`'s enumeration builds: `"a"` inserted first,
`"b"` second. -/
def treeDelete : Tree := .node .nil "a" (.node .nil "b" .nil)

/-- The same destructive run as `inpDelete`, but with every unlink
succeeding, so the walk completes. -/
def inpDeleteOk : Input :=
  { argv1 := some "/d", deleteEnv := some "delete", progressEnv := none, sysOk := true,
    batches := [.batch [⟨"a", 8⟩, ⟨"b", 8⟩]], fs := ["a", "b"], fail := noFail }

/-- A concrete run with a mistyped `DENTLS_DELETE` value. -/
def inpBadMode : Input :=
  { argv1 := some "/d", deleteEnv := some "DELETE", progressEnv := none, sysOk := true,
    batches := [], fs := ["x"], fail := noFail }

/-- A concrete run with a flag-shaped first argument. -/
def inpFlagArg : Input :=
  { argv1 := some "-h", deleteEnv := none, progressEnv := none, sysOk := true,
    batches := [], fs := ["x"], fail := noFail }

theorem strcmpChars_self (l : List Char) : strcmpChars l l = 0 := by
  induction l with
  | nil => rfl
  | cons c cs ih => simp [strcmpChars, lt_irrefl, ih]

theorem strcmpChars_eq_zero_iff (a b : List Char) : strcmpChars a b = 0 ↔ a = b := by
  induction a generalizing b with
  | nil => cases b <;> simp [strcmpChars]
  | cons c cs ih =>
    cases b with
    | nil => simp [strcmpChars]
    | cons d ds =>
      rcases lt_trichotomy c d with h | h | h
      · simp only [strcmpChars, if_pos h]
        constructor
        · intro hh; exact absurd hh (by decide)
        · intro hh; injection hh with hc; exact absurd hc (ne_of_lt h)
      · subst h
        simp only [strcmpChars, if_neg (lt_irrefl c), ih]
        simp
      · simp only [strcmpChars, if_neg (asymm h), if_pos h]
        constructor
        · intro hh; exact absurd hh (by decide)
        · intro hh; injection hh with hc; exact absurd hc.symm (ne_of_lt h)

theorem strcmpChars_cases (a b : List Char) :
    strcmpChars a b = -1 ∨ strcmpChars a b = 0 ∨ strcmpChars a b = 1 := by
  induction a generalizing b with
  | nil => cases b <;> simp [strcmpChars]
  | cons c cs ih =>
    cases b with
    | nil => simp [strcmpChars]
    | cons d ds =>
      by_cases h1 : c < d
      · simp [strcmpChars, h1]
      · by_cases h2 : d < c
        · simp [strcmpChars, h1, h2]
        · simp [strcmpChars, h1, h2, ih]

theorem strcmpChars_antisymm (a b : List Char) :
    strcmpChars a b = -strcmpChars b a := by
  induction a generalizing b with
  | nil => cases b <;> simp [strcmpChars]
  | cons c cs ih =>
    cases b with
    | nil => simp [strcmpChars]
    | cons d ds =>
      by_cases h1 : c < d
      · have h2 : ¬ d < c := asymm h1
        simp [strcmpChars, h1, h2]
      · by_cases h2 : d < c
        · simp [strcmpChars, h1, h2]
        · simp [strcmpChars, h1, h2, ih]

theorem strcmpChars_trans {a b c : List Char}
    (hab : strcmpChars a b = -1) (hbc : strcmpChars b c = -1) :
    strcmpChars a c = -1 := by
  induction a generalizing b c with
  | nil =>
    cases b with
    | nil => simp [strcmpChars] at hab
    | cons y ys =>
      cases c with
      | nil => simp [strcmpChars] at hbc
      | cons z zs => simp [strcmpChars]
  | cons x xs ih =>
    cases b with
    | nil => simp [strcmpChars] at hab
    | cons y ys =>
      cases c with
      | nil => simp [strcmpChars] at hbc
      | cons z zs =>
        rcases lt_trichotomy x y with hxy | hxy | hxy
        · rcases lt_trichotomy y z with hyz | hyz | hyz
          · simp [strcmpChars, lt_trans hxy hyz]
          · subst hyz; simp [strcmpChars, hxy]
          · simp [strcmpChars, asymm hyz, hyz] at hbc
        · subst hxy
          rcases lt_trichotomy x z with hxz | hxz | hxz
          · simp [strcmpChars, hxz]
          · subst hxz
            simp only [strcmpChars, if_neg (lt_irrefl x)] at hab hbc ⊢
            exact ih hab hbc
          · simp [strcmpChars, asymm hxz, hxz] at hbc
        · simp [strcmpChars, asymm hxy, hxy] at hab

theorem string_eq_of_data_eq {a b : String} (h : a.data = b.data) : a = b := by
  cases a; cases b; exact congrArg String.mk h

theorem strcmp_eq_zero_iff (a b : String) : strcmp a b = 0 ↔ a = b := by
  constructor
  · intro h
    exact string_eq_of_data_eq ((strcmpChars_eq_zero_iff a.data b.data).mp h)
  · intro h; subst h; exact strcmpChars_self a.data

theorem strcmp_self (a : String) : strcmp a a = 0 := strcmpChars_self a.data

theorem strcmp_cases (a b : String) :
    strcmp a b = -1 ∨ strcmp a b = 0 ∨ strcmp a b = 1 :=
  strcmpChars_cases a.data b.data

theorem strcmp_neg_iff (a b : String) : strcmp a b < 0 ↔ strcmp a b = -1 := by
  rcases strcmp_cases a b with h | h | h <;> simp [h]

theorem strcmp_pos_iff (a b : String) : 0 < strcmp a b ↔ strcmp a b = 1 := by
  rcases strcmp_cases a b with h | h | h <;> simp [h]

theorem strcmp_antisymm (a b : String) : strcmp a b = -strcmp b a :=
  strcmpChars_antisymm a.data b.data

theorem strcmp_trans {a b c : String}
    (hab : strcmp a b < 0) (hbc : strcmp b c < 0) : strcmp a c < 0 := by
  rw [strcmp_neg_iff] at *
  exact strcmpChars_trans hab hbc

theorem strcmp_asymm {a b : String} (h : strcmp a b < 0) : ¬ strcmp b a < 0 := by
  intro h'
  have := strcmp_trans h h'
  simp [strcmp_self] at this

theorem ne_of_strcmp_neg {a b : String} (h : strcmp a b < 0) : a ≠ b := by
  intro he; subst he; simp [strcmp_self] at h

theorem actFilter_preorder (k : String) : actFilter (.preorder, k) = none := rfl

theorem actFilter_postorder (k : String) : actFilter (.postorder, k) = none := rfl

theorem actFilter_endorder (k : String) : actFilter (.endorder, k) = some k := rfl

theorem actFilter_leaf (k : String) : actFilter (.leaf, k) = some k := rfl

theorem twalkActions_eq_postorderList (t : Tree) : twalkActions t = postorderList t := by
  induction t with
  | nil => rfl
  | node l k r ihl ihr =>
    cases l with
    | nil =>
      cases r with
      | nil => rfl
      | node rl rk rr =>
        simp only [twalkActions, twalkVisits, postorderList, List.filterMap_append,
          List.filterMap_cons, actFilter_preorder, actFilter_postorder, actFilter_endorder,
          List.filterMap_nil] at *
        simp [ihr]
    | node ll lk lr =>
      cases r with
      | nil =>
        simp only [twalkActions, twalkVisits, postorderList, List.filterMap_append,
          List.filterMap_cons, actFilter_preorder, actFilter_postorder, actFilter_endorder,
          List.filterMap_nil] at *
        simp [ihl]
      | node rl rk rr =>
        simp only [twalkActions, twalkVisits, postorderList, List.filterMap_append,
          List.filterMap_cons, actFilter_preorder, actFilter_postorder, actFilter_endorder,
          List.filterMap_nil] at *
        simp [ihl, ihr]

theorem mem_postorderList {t : Tree} {n : String} :
    n ∈ postorderList t ↔ memT t n = true := by
  induction t with
  | nil => simp [postorderList, memT]
  | node l k r ihl ihr =>
    simp only [postorderList, List.mem_append, List.mem_singleton, memT,
      Bool.or_eq_true, beq_iff_eq, ihl, ihr]
    tauto

theorem memT_tsearch (t : Tree) (key n : String) :
    memT (tsearch t key) n = true ↔ n = key ∨ memT t n = true := by
  induction t with
  | nil => simp [tsearch, memT]
  | node l k r ihl ihr =>
    by_cases h1 : compare_fnames key k < 0
    · simp [tsearch, h1, memT, ihl, or_assoc, or_left_comm, or_comm]
    · by_cases h2 : 0 < compare_fnames key k
      · simp [tsearch, h1, h2, memT, ihr, or_assoc, or_left_comm, or_comm]
      · have hk : key = k := by
          have : compare_fnames key k = 0 := le_antisymm (not_lt.mp h2) (not_lt.mp h1)
          exact (strcmp_eq_zero_iff key k).mp this
        subst hk
        simp only [tsearch, h1, h2, if_false, memT]
        constructor
        · intro h; right; exact h
        · rintro (h | h)
          · subst h; simp [memT]
          · exact h

theorem allT_tsearch {p : String → Bool} {t : Tree} {key : String}
    (ht : allT p t = true) (hk : p key = true) : allT p (tsearch t key) = true := by
  induction t with
  | nil => simp [tsearch, allT, hk]
  | node l k r ihl ihr =>
    simp only [allT, Bool.and_eq_true] at ht
    obtain ⟨⟨hpk, hl⟩, hr⟩ := ht
    by_cases h1 : compare_fnames key k < 0
    · simp [tsearch, h1, allT, hpk, hr, ihl hl]
    · by_cases h2 : 0 < compare_fnames key k
      · simp [tsearch, h1, h2, allT, hpk, hl, ihr hr]
      · simp [tsearch, h1, h2, allT, hpk, hl, hr]

theorem isBST_tsearch {t : Tree} (ht : isBST t = true) (key : String) :
    isBST (tsearch t key) = true := by
  induction t with
  | nil => simp [tsearch, isBST, allT]
  | node l k r ihl ihr =>
    simp only [isBST, Bool.and_eq_true] at ht
    obtain ⟨⟨⟨hal, har⟩, hbl⟩, hbr⟩ := ht
    by_cases h1 : compare_fnames key k < 0
    · have hall : allT (fun x => decide (strcmp x k < 0)) (tsearch l key) = true :=
        allT_tsearch hal (by simpa using h1)
      simp [tsearch, h1, isBST, hall, har, hbr, ihl hbl]
    · by_cases h2 : 0 < compare_fnames key k
      · have hkey : strcmp k key < 0 := by
          have := strcmp_antisymm k key
          unfold compare_fnames at h2
          omega
        have hall : allT (fun x => decide (strcmp k x < 0)) (tsearch r key) = true :=
          allT_tsearch har (by simpa using hkey)
        simp [tsearch, h1, h2, isBST, hall, hal, hbl, ihr hbr]
      · simp [tsearch, h1, h2, isBST, hal, har, hbl, hbr]

theorem allT_mem {p : String → Bool} {t : Tree} {n : String}
    (ht : allT p t = true) (hn : memT t n = true) : p n = true := by
  induction t with
  | nil => simp [memT] at hn
  | node l k r ihl ihr =>
    simp only [allT, Bool.and_eq_true] at ht
    simp only [memT, Bool.or_eq_true, beq_iff_eq] at hn
    rcases hn with (h | h) | h
    · subst h; exact ht.1.1
    · exact ihl ht.1.2 h
    · exact ihr ht.2 h

/-- A duplicate insertion finds the existing node and leaves the tree
unchanged. -/
theorem tsearch_mem_unchanged {t : Tree} {n : String}
    (hbst : isBST t = true) (hmem : memT t n = true) : tsearch t n = t := by
  induction t with
  | nil => simp [memT] at hmem
  | node l k r ihl ihr =>
    simp only [isBST, Bool.and_eq_true] at hbst
    simp only [memT, Bool.or_eq_true, beq_iff_eq] at hmem
    rcases hmem with (h | h) | h
    · subst h
      simp [tsearch, compare_fnames, strcmp_self]
    · have hlt : strcmp n k < 0 := by
        have := allT_mem hbst.1.1.1 h
        simpa using this
      simp [tsearch, compare_fnames, hlt, ihl hbst.1.2 h]
    · have hgt : strcmp k n < 0 := by
        have := allT_mem hbst.1.1.2 h
        simpa using this
      have h1 : ¬ compare_fnames n k < 0 := by
        unfold compare_fnames
        have := strcmp_antisymm n k
        omega
      have h2 : 0 < compare_fnames n k := by
        unfold compare_fnames
        have := strcmp_antisymm n k
        omega
      simp [tsearch, h1, h2, ihr hbst.2 h]

theorem nodup_postorderList {t : Tree} (hbst : isBST t = true) :
    (postorderList t).Nodup := by
  induction t with
  | nil => simp [postorderList]
  | node l k r ihl ihr =>
    simp only [isBST, Bool.and_eq_true] at hbst
    have hl := ihl hbst.1.2
    have hr := ihr hbst.2
    have hdisj : ∀ x ∈ postorderList l, x ∉ postorderList r := by
      intro x hx hx'
      have h1 : strcmp x k < 0 := by
        have := allT_mem hbst.1.1.1 (mem_postorderList.mp hx)
        simpa using this
      have h2 : strcmp k x < 0 := by
        have := allT_mem hbst.1.1.2 (mem_postorderList.mp hx')
        simpa using this
      exact strcmp_asymm h1 h2
    have hkl : k ∉ postorderList l := by
      intro hx
      have h1 : strcmp k k < 0 := by
        have := allT_mem hbst.1.1.1 (mem_postorderList.mp hx)
        simpa using this
      simp [strcmp_self] at h1
    have hkr : k ∉ postorderList r := by
      intro hx
      have h1 : strcmp k k < 0 := by
        have := allT_mem hbst.1.1.2 (mem_postorderList.mp hx)
        simpa using this
      simp [strcmp_self] at h1
    simp only [postorderList, List.nodup_append]
    refine ⟨⟨hl, hr, hdisj⟩, List.nodup_singleton k, ?_⟩
    intro x hx hx'
    simp only [List.mem_singleton] at hx'
    subst hx'
    rcases List.mem_append.mp hx with h | h
    · exact hkl h
    · exact hkr h

theorem processDent_eq (st : Tree × Nat) (d : linux_dirent) :
    processDent st d =
      if keptRecord d then (tsearch st.1 d.d_name, st.2 + 1) else st := by
  unfold processDent keptRecord
  rcases st with ⟨t, c⟩
  by_cases h1 : d.d_name = "."
  · simp [h1, strcmp_eq_zero_iff]
  · by_cases h2 : d.d_name = ".."
    · simp [h1, h2, strcmp_eq_zero_iff]
    · have e1 : ¬ strcmp "." d.d_name = 0 := by
        rw [strcmp_eq_zero_iff]; exact fun h => h1 h.symm
      have e2 : ¬ strcmp ".." d.d_name = 0 := by
        rw [strcmp_eq_zero_iff]; exact fun h => h2 h.symm
      by_cases h3 : d.d_type = DT_REG
      · simp [e1, e2, h1, h2, h3]
      · simp [e1, e2, h1, h2, h3]

theorem foldl_processDent_mem (ds : List linux_dirent) (st : Tree × Nat) (n : String) :
    memT (ds.foldl processDent st).1 n = true ↔
      memT st.1 n = true ∨ ∃ d ∈ ds, keptRecord d ∧ d.d_name = n := by
  induction ds generalizing st with
  | nil => simp
  | cons d ds ih =>
    rw [List.foldl_cons, ih, processDent_eq]
    by_cases hd : keptRecord d
    · rw [if_pos hd]
      simp only [List.mem_cons]
      constructor
      · rintro (h | h)
        · rcases (memT_tsearch st.1 d.d_name n).mp h with h' | h'
          · exact Or.inr ⟨d, Or.inl rfl, hd, h'.symm⟩
          · exact Or.inl h'
        · rcases h with ⟨d', hd', hk, hn⟩
          exact Or.inr ⟨d', Or.inr hd', hk, hn⟩
      · rintro (h | ⟨d', hd', hk, hn⟩)
        · exact Or.inl ((memT_tsearch st.1 d.d_name n).mpr (Or.inr h))
        · rcases hd' with h' | h'
          · rw [h'] at hn
            exact Or.inl ((memT_tsearch st.1 d.d_name n).mpr (Or.inl hn.symm))
          · exact Or.inr ⟨d', h', hk, hn⟩
    · rw [if_neg hd]
      simp only [List.mem_cons]
      constructor
      · rintro (h | ⟨d', hd', hk, hn⟩)
        · exact Or.inl h
        · exact Or.inr ⟨d', Or.inr hd', hk, hn⟩
      · rintro (h | ⟨d', hd', hk, hn⟩)
        · exact Or.inl h
        · rcases hd' with h' | h'
          · rw [h'] at hk; exact absurd hk hd
          · exact Or.inr ⟨d', h', hk, hn⟩

theorem foldl_processDent_isBST (ds : List linux_dirent) (st : Tree × Nat)
    (hst : isBST st.1 = true) : isBST (ds.foldl processDent st).1 = true := by
  induction ds generalizing st with
  | nil => simpa
  | cons d ds ih =>
    rw [List.foldl_cons, processDent_eq]
    by_cases hd : keptRecord d
    · rw [if_pos hd]
      exact ih _ (isBST_tsearch hst d.d_name)
    · rw [if_neg hd]
      exact ih _ hst

theorem foldl_processDent_count (ds : List linux_dirent) (st : Tree × Nat) :
    (ds.foldl processDent st).2 = st.2 + ds.countP (fun d => decide (keptRecord d)) := by
  induction ds generalizing st with
  | nil => simp
  | cons d ds ih =>
    rw [List.foldl_cons, processDent_eq]
    by_cases hd : keptRecord d
    · rw [if_pos hd, ih]
      simp [List.countP_cons, hd]
      omega
    · rw [if_neg hd, ih]
      simp [List.countP_cons, hd]

theorem getdentsLoop_ok {bs : List BatchResult} {st st' : Tree × Nat}
    (h : getdentsLoop st bs = .ok st') :
    st' = (enumeratedRecords bs).foldl processDent st := by
  induction bs generalizing st with
  | nil =>
    simp only [getdentsLoop, Except.ok.injEq] at h
    simp [enumeratedRecords, h]
  | cons b rest ih =>
    cases b with
    | err => simp [getdentsLoop] at h
    | batch ds =>
      by_cases hds : ds = []
      · simp only [getdentsLoop, if_pos hds, Except.ok.injEq] at h
        simp [enumeratedRecords, hds, h]
      · simp only [getdentsLoop, if_neg hds] at h
        rw [enumeratedRecords, if_neg hds, List.foldl_append]
        exact ih h

/-- In print mode the walk prints each name in sequence, touches nothing
on the filesystem, never aborts, and visits every name. -/
theorem walkExec_print_eq (sp : Bool) (f : String → Bool) (names fs : List String) (c : Nat) :
    walkExec true sp f names fs c =
      (names, printProgressMsgs sp c names, fs, c + names.length, false) := by
  induction names generalizing c with
  | nil => simp [walkExec, printProgressMsgs]
  | cons n rest ih =>
    simp [walkExec, printProgressMsgs, lt_self_iff_false, ih (c + 1)]
    omega

/-- In destructive mode, when every visited name unlinks successfully the
walk prints nothing, erases each name in walk order, never aborts, and
visits every name. -/
theorem walkExec_delete_ok (sp : Bool) (f : String → Bool) (names fs : List String)
    (c : Nat) (h : ∀ n ∈ names, f n = false) :
    walkExec false sp f names fs c =
      ([], printProgressMsgs sp c names, List.foldl List.erase fs names,
        c + names.length, false) := by
  induction names generalizing fs c with
  | nil => simp [walkExec, printProgressMsgs]
  | cons n rest ih =>
    have hn : f n = false := h n (List.mem_cons_self n rest)
    simp [walkExec, printProgressMsgs, lt_self_iff_false, hn,
      ih (fs.erase n) (c + 1) (fun m hm => h m (List.mem_cons_of_mem n hm)),
      List.foldl_cons]
    omega

/-- `totalFiles` is never among the messages the walk itself emits. -/
theorem walkExec_no_totalFiles (po sp : Bool) (f : String → Bool)
    (names fs : List String) (c : Nat) :
    ∀ m ∈ (walkExec po sp f names fs c).2.1, ∀ k, m ≠ .totalFiles k := by
  induction names generalizing fs c with
  | nil => simp [walkExec]
  | cons n rest ih =>
    simp only [walkExec]
    by_cases hrc : (if po then (0 : Int) else if f n then -1 else 0) < 0
    · rw [if_pos hrc]
      intro m hm k
      simp only [List.mem_singleton] at hm
      subst hm
      exact fun h => Msg.noConfusion h
    · rw [if_neg hrc]
      rcases hw : walkExec po sp f rest (if po then fs else if f n then fs else fs.erase n)
          (c + 1) with ⟨outR, msgR, fsR, cR, ab⟩
      intro m hm k
      simp only [List.mem_append] at hm
      rcases hm with hm | hm
      · unfold progressMsgs at hm
        split at hm
        · split at hm
          · simp only [List.mem_singleton] at hm
            subst hm
            exact fun h => Msg.noConfusion h
          · split at hm
            · simp only [List.mem_singleton] at hm
              subst hm
              exact fun h => Msg.noConfusion h
            · simp at hm
        · simp at hm
      · have := ih (if po then fs else if f n then fs else fs.erase n) (c + 1)
        rw [hw] at this
        exact this m hm k

/-- In destructive mode, if every name in `pre` unlinks successfully and
`x` then fails, the walk removes exactly the names of `pre` from the
filesystem (in order), counts `pre.length + 1` visits (the failing visit
is counted before the check), reports the failing name as its last stderr
message, and aborts with nothing printed to stdout. -/
theorem walkExec_abort (sp : Bool) (f : String → Bool) (pre : List String) (x : String)
    (suf : List String) (fs : List String) (c : Nat)
    (hpre : ∀ n ∈ pre, f n = false) (hx : f x = true) :
    ∃ ms, walkExec false sp f (pre ++ x :: suf) fs c =
      ([], ms ++ [.unlinkFailed x], List.foldl List.erase fs pre,
        c + pre.length + 1, true) := by
  induction pre generalizing fs c with
  | nil =>
    refine ⟨[], ?_⟩
    simp [walkExec, hx]
  | cons n pre' ih =>
    have hn : f n = false := hpre n (List.mem_cons_self n pre')
    obtain ⟨ms', hms'⟩ :=
      ih (fs.erase n) (c + 1) (fun m hm => hpre m (List.mem_cons_of_mem n hm))
    refine ⟨progressMsgs sp (c + 1) ++ ms', ?_⟩
    simp [walkExec, hn, hms', List.foldl_cons, List.append_assoc]
    omega

theorem mainModel_run {inp : Input} {p : String} {po : Bool}
    (h1 : inp.argv1 = some p) (h2 : p.data.head? = some '/')
    (h3 : parseDeleteMode inp.deleteEnv = .ok po) :
    mainModel inp = mainAfterChecks inp po := by
  unfold mainModel
  simp only [h1]
  rw [if_neg (by rw [h2]; decide)]
  simp only [h3]

theorem mainAfterChecks_enum {inp : Input} {po : Bool} {t : Tree} {total : Nat}
    (hsys : inp.sysOk = true)
    (henum : getdentsLoop (.nil, 0) inp.batches = .ok (t, total)) :
    mainAfterChecks inp po =
      (match walkExec po inp.progressEnv.isSome inp.fail (twalkActions t) inp.fs 0 with
      | (out, wmsgs, fs2, cnt, aborted) =>
        if aborted then
          ⟨out, [.totalFiles total, .performing po] ++ wmsgs, 1, fs2, cnt⟩
        else
          ⟨out, [.totalFiles total, .performing po] ++ wmsgs ++ [.doneMsg],
            0, fs2, cnt⟩) := by
  simp only [mainAfterChecks, hsys, henum, if_true]

theorem mainAfterChecks_enumErr {inp : Input} {po : Bool}
    (hsys : inp.sysOk = true)
    (henum : getdentsLoop (.nil, 0) inp.batches = .error ()) :
    mainAfterChecks inp po = ⟨[], [.getdentsErr], 1, inp.fs, 0⟩ := by
  simp only [mainAfterChecks, hsys, henum, if_true]

/-- Complete description of a successful report-mode run: every name the
walk acts on goes to stdout in walk order, stderr carries the total-files
report, the mode announcement, the progress markers and the completion
notice, exit is 0, the filesystem is untouched, and `delete_count` ends at
the number of acted-on names. -/
theorem mainModel_report {inp : Input} {p : String} {t : Tree} {total : Nat}
    (hargv : inp.argv1 = some p) (habs : p.data.head? = some '/')
    (hmode : inp.deleteEnv = none) (hsys : inp.sysOk = true)
    (henum : getdentsLoop (.nil, 0) inp.batches = .ok (t, total)) :
    mainModel inp =
      ⟨twalkActions t,
        [.totalFiles total, .performing true] ++
          printProgressMsgs inp.progressEnv.isSome 0 (twalkActions t) ++ [.doneMsg],
        0, inp.fs, (twalkActions t).length⟩ := by
  have hpo : parseDeleteMode inp.deleteEnv = .ok true := by rw [hmode]; rfl
  rw [mainModel_run hargv habs hpo, mainAfterChecks_enum hsys henum, walkExec_print_eq]
  simp

/-- Complete description of a destructive run aborted by an unlink
failure at `x` after the successful removals of `pre`. -/
theorem mainModel_delete_abort {inp : Input} {p : String} {t : Tree} {total : Nat}
    {pre : List String} {x : String} {suf : List String}
    (hargv : inp.argv1 = some p) (habs : p.data.head? = some '/')
    (hmode : inp.deleteEnv = some "delete") (hsys : inp.sysOk = true)
    (henum : getdentsLoop (.nil, 0) inp.batches = .ok (t, total))
    (hsplit : twalkActions t = pre ++ x :: suf)
    (hpre : ∀ n ∈ pre, inp.fail n = false) (hx : inp.fail x = true) :
    ∃ ms, mainModel inp =
      ⟨[], [.totalFiles total, .performing false] ++ (ms ++ [.unlinkFailed x]),
        1, List.foldl List.erase inp.fs pre, pre.length + 1⟩ := by
  have hpo : parseDeleteMode inp.deleteEnv = .ok false := by
    rw [hmode]; simp [parseDeleteMode, strcmp_self]
  obtain ⟨ms, hms⟩ :=
    walkExec_abort inp.progressEnv.isSome inp.fail pre x suf inp.fs 0 hpre hx
  refine ⟨ms, ?_⟩
  rw [mainModel_run hargv habs hpo, mainAfterChecks_enum hsys henum, hsplit, hms]
  simp

theorem isTotalMsg_false {m : Msg} (h : ∀ k, m ≠ .totalFiles k) : isTotalMsg m = false := by
  cases m <;> first | rfl | exact absurd rfl (h _)

/-- C1: for every directory whose enumeration yields a known set of
records, in report mode the set of names emitted on stdout equals exactly
the set of names of records whose type tag is `DT_REG`, excluding the `.`
and `..` pseudo-entries and all non-regular entries, regardless of the
order in which the records are returned (the right-hand side is a property
of the record set only). -/
theorem claim_C1 (inp : Input) (p : String) (t : Tree) (total : Nat)
    (hargv : inp.argv1 = some p) (habs : p.data.head? = some '/')
    (hmode : inp.deleteEnv = none) (hsys : inp.sysOk = true)
    (henum : getdentsLoop (.nil, 0) inp.batches = .ok (t, total)) (n : String) :
    n ∈ (mainModel inp).stdoutLines ↔
      n ≠ "." ∧ n ≠ ".." ∧
        ∃ d ∈ enumeratedRecords inp.batches, d.d_name = n ∧ d.d_type = DT_REG := by
  rw [mainModel_report hargv habs hmode hsys henum]
  show n ∈ twalkActions t ↔ _
  have ht : t = ((enumeratedRecords inp.batches).foldl processDent (Tree.nil, 0)).1 := by
    rw [← getdentsLoop_ok henum]
  rw [twalkActions_eq_postorderList, mem_postorderList, ht, foldl_processDent_mem]
  simp only [memT, Bool.false_eq_true, false_or]
  constructor
  · rintro ⟨d, hd, hk, hname⟩
    exact ⟨hname ▸ hk.1, hname ▸ hk.2.1, d, hd, hname, hk.2.2⟩
  · rintro ⟨h1, h2, d, hd, hname, htype⟩
    exact ⟨d, hd, ⟨hname.symm ▸ h1, hname.symm ▸ h2, htype⟩, hname⟩

/-- C1 witness: a concrete two-batch report-mode run, instantiated at the
name `"a"`. -/
theorem claim_C1_witness :
    "a" ∈ (mainModel inpReport).stdoutLines ↔
      "a" ≠ "." ∧ "a" ≠ ".." ∧
        ∃ d ∈ enumeratedRecords inpReport.batches, d.d_name = "a" ∧ d.d_type = DT_REG :=
  claim_C1 inpReport "/d" treeReport 2 rfl (by decide) rfl rfl rfl "a"

/-- C2: when the enumerated records have pairwise-distinct regular-file
names, each such name is acted on exactly once by the walk (the action
sequence counts it once, in either mode) and appears exactly once in the
report-mode stdout, even with the records split across several batches. -/
theorem claim_C2 (inp : Input) (p : String) (t : Tree) (total : Nat)
    (hargv : inp.argv1 = some p) (habs : p.data.head? = some '/')
    (hmode : inp.deleteEnv = none) (hsys : inp.sysOk = true)
    (henum : getdentsLoop (.nil, 0) inp.batches = .ok (t, total))
    (hnodup : (regNames inp.batches).Nodup)
    (n : String) (hn : n ∈ regNames inp.batches) :
    (twalkActions t).count n = 1 ∧ (mainModel inp).stdoutLines.count n = 1 := by
  have ht : t = ((enumeratedRecords inp.batches).foldl processDent (Tree.nil, 0)).1 := by
    rw [← getdentsLoop_ok henum]
  have hbst : isBST t = true := by
    rw [ht]
    exact foldl_processDent_isBST _ _ rfl
  have hmem : memT t n = true := by
    obtain ⟨d, hd, hd2⟩ := List.mem_filterMap.mp hn
    by_cases hk : keptRecord d
    · rw [if_pos hk] at hd2
      injection hd2 with hd2
      rw [ht]
      exact (foldl_processDent_mem _ _ n).mpr (Or.inr ⟨d, hd, hk, hd2⟩)
    · rw [if_neg hk] at hd2
      exact absurd hd2 (by simp)
  have hcount : (postorderList t).count n = 1 :=
    List.count_eq_one_of_mem (nodup_postorderList hbst) (mem_postorderList.mpr hmem)
  constructor
  · rw [twalkActions_eq_postorderList]; exact hcount
  · rw [mainModel_report hargv habs hmode hsys henum]
    show (twalkActions t).count n = 1
    rw [twalkActions_eq_postorderList]; exact hcount

/-- C2 witness: the concrete two-batch report-mode run, instantiated at
`"a"` (which the second batch delivers). -/
theorem claim_C2_witness :
    (twalkActions treeReport).count "a" = 1 ∧
      (mainModel inpReport).stdoutLines.count "a" = 1 :=
  claim_C2 inpReport "/d" treeReport 2 rfl (by decide) rfl rfl rfl (by decide) "a" (by decide)

/-- C3: the configured action fires only at the `leaf` and `endorder`
visitation moments, never at `preorder` or `postorder` (in-order) moments,
and consequently the action sequence of every tree is its postorder replay:
each subtree fully acted on before its parent node. -/
theorem claim_C3 :
    (∀ t : Tree, twalkActions t = postorderList t) ∧
    walk_tree_fires .preorder = false ∧ walk_tree_fires .postorder = false ∧
    walk_tree_fires .leaf = true ∧ walk_tree_fires .endorder = true :=
  ⟨twalkActions_eq_postorderList, rfl, rfl, rfl, rfl⟩

/-- C4: in destructive mode, if the removal of the `K+1`-th visited entry
fails after the `K` entries of `pre` were removed successfully, the run
exits 1, its last stderr message reports the failing name, exactly the
entries of `pre` have been erased from the filesystem — no more, no fewer,
no retry, no skipping — nothing is printed to stdout, and the failing
visit was still counted. -/
theorem claim_C4 (inp : Input) (p : String) (t : Tree) (total : Nat)
    (pre : List String) (x : String) (suf : List String)
    (hargv : inp.argv1 = some p) (habs : p.data.head? = some '/')
    (hmode : inp.deleteEnv = some "delete") (hsys : inp.sysOk = true)
    (henum : getdentsLoop (.nil, 0) inp.batches = .ok (t, total))
    (hsplit : twalkActions t = pre ++ x :: suf)
    (hpre : ∀ n ∈ pre, inp.fail n = false) (hx : inp.fail x = true) :
    (mainModel inp).exitCode = 1 ∧
    (mainModel inp).stderrMsgs.getLast? = some (.unlinkFailed x) ∧
    (mainModel inp).fsFinal = List.foldl List.erase inp.fs pre ∧
    (mainModel inp).stdoutLines = [] ∧
    (mainModel inp).delete_count = pre.length + 1 := by
  obtain ⟨ms, hm⟩ := mainModel_delete_abort hargv habs hmode hsys henum hsplit hpre hx
  rw [hm]
  refine ⟨rfl, ?_, rfl, rfl, rfl⟩
  show ([Msg.totalFiles total, Msg.performing false] ++ (ms ++ [Msg.unlinkFailed x])).getLast?
    = some (Msg.unlinkFailed x)
  rw [← List.append_assoc]
  exact List.getLast?_concat _

/-- C4 witness: the concrete destructive run over `"a"` and `"b"` where
the walk removes `"b"` first and the unlink of `"a"` then fails. -/
theorem claim_C4_witness :
    (mainModel inpDelete).exitCode = 1 ∧
    (mainModel inpDelete).stderrMsgs.getLast? = some (.unlinkFailed "a") ∧
    (mainModel inpDelete).fsFinal = List.foldl List.erase inpDelete.fs ["b"] ∧
    (mainModel inpDelete).stdoutLines = [] ∧
    (mainModel inpDelete).delete_count = ["b"].length + 1 :=
  claim_C4 inpDelete "/d" treeDelete 2 ["b"] "a" [] rfl (by decide) rfl rfl rfl
    (by decide) (by decide) (by decide)

/-- C5: destructive mode (`print_only = false`) is selected if and only if
`DENTLS_DELETE` equals the exact literal `"delete"`; every other set value
is rejected with an explanatory error and exit 1 before any enumeration or
filesystem mutation (the outcome is a constant independent of the
`getdents` results, with the filesystem returned untouched); an unset
variable selects report-only mode. -/
theorem claim_C5 :
    (∀ env b, parseDeleteMode env = .ok b → (b = false ↔ env = some "delete")) ∧
    (∀ v, v ≠ "delete" → parseDeleteMode (some v) = .error ()) ∧
    parseDeleteMode none = .ok true ∧
    (∀ inp p v, inp.argv1 = some p → p.data.head? = some '/' →
      inp.deleteEnv = some v → v ≠ "delete" →
      mainModel inp = ⟨[], [.modeErr], 1, inp.fs, 0⟩) := by
  refine ⟨?_, ?_, rfl, ?_⟩
  · intro env b h
    cases env with
    | none =>
      simp only [parseDeleteMode, Except.ok.injEq] at h
      subst h
      constructor
      · intro hb; exact absurd hb (by decide)
      · intro hc; exact Option.noConfusion hc
    | some v =>
      by_cases hv : strcmp v "delete" ≠ 0
      · rw [parseDeleteMode, if_pos hv] at h
        exact Except.noConfusion h
      · rw [parseDeleteMode, if_neg hv] at h
        injection h with h
        subst h
        have hve : v = "delete" := (strcmp_eq_zero_iff v "delete").mp (not_not.mp hv)
        subst hve
        simp
  · intro v hv
    have hne : strcmp v "delete" ≠ 0 := fun h => hv ((strcmp_eq_zero_iff v "delete").mp h)
    rw [parseDeleteMode, if_pos hne]
  · intro inp p v h1 h2 h3 h4
    have herr : parseDeleteMode inp.deleteEnv = .error () := by
      rw [h3]
      have hne : strcmp v "delete" ≠ 0 := fun h => h4 ((strcmp_eq_zero_iff v "delete").mp h)
      rw [parseDeleteMode, if_pos hne]
    unfold mainModel
    simp only [h1]
    rw [if_neg (by rw [h2]; decide)]
    simp only [herr]

/-- C5 witness: the run with `DENTLS_DELETE=DELETE` (mistyped) is rejected
with the explanatory error, exit 1, empty stdout and untouched
filesystem. -/
theorem claim_C5_witness :
    mainModel inpBadMode = ⟨[], [.modeErr], 1, inpBadMode.fs, 0⟩ :=
  claim_C5.2.2.2 inpBadMode "/d" "DELETE" rfl (by decide) rfl (by decide)

/-- C6: a missing first positional argument, or one that begins with a
dash or does not begin with `/`, makes the program print usage or guidance
text and exit non-zero (1 and -1 respectively), with empty stdout and the
filesystem returned untouched. -/
theorem claim_C6 :
    (∀ inp, inp.argv1 = none → mainModel inp = ⟨[], [.usageNoArg], 1, inp.fs, 0⟩) ∧
    (∀ inp p, inp.argv1 = some p →
      (p.data.head? = some '-' ∨ p.data.head? ≠ some '/') →
      mainModel inp = ⟨[], [.usageHelp], -1, inp.fs, 0⟩) ∧
    (1 : Int) ≠ 0 ∧ (-1 : Int) ≠ 0 := by
  refine ⟨?_, ?_, by decide, by decide⟩
  · intro inp h
    unfold mainModel
    simp only [h]
  · intro inp p h hbad
    unfold mainModel
    simp only [h]
    rw [if_pos hbad]

/-- C6 witness: the run invoked with the flag-shaped argument `-h`. -/
theorem claim_C6_witness :
    mainModel inpFlagArg = ⟨[], [.usageHelp], -1, inpFlagArg.fs, 0⟩ :=
  claim_C6.2.1 inpFlagArg "-h" rfl (by decide)

/-- C7: enumeration stops exactly at the first zero-record batch (later
results are never consulted) and continues over every non-empty batch; an
error result from any batch request makes the run report it and exit 1;
and on success the regular-file count is reported once, as the very first
stderr message, before any walk output. -/
theorem claim_C7 :
    (∀ st rest, getdentsLoop st (.batch [] :: rest) = .ok st) ∧
    (∀ st ds rest, ds ≠ [] →
      getdentsLoop st (.batch ds :: rest) = getdentsLoop (ds.foldl processDent st) rest) ∧
    (∀ st rest, getdentsLoop st (.err :: rest) = .error ()) ∧
    (∀ inp p po, inp.argv1 = some p → p.data.head? = some '/' →
      parseDeleteMode inp.deleteEnv = .ok po → inp.sysOk = true →
      getdentsLoop (.nil, 0) inp.batches = .error () →
      mainModel inp = ⟨[], [.getdentsErr], 1, inp.fs, 0⟩) ∧
    (∀ inp p po t total, inp.argv1 = some p → p.data.head? = some '/' →
      parseDeleteMode inp.deleteEnv = .ok po → inp.sysOk = true →
      getdentsLoop (.nil, 0) inp.batches = .ok (t, total) →
      (mainModel inp).stderrMsgs.head? = some (.totalFiles total) ∧
      (mainModel inp).stderrMsgs.filter isTotalMsg = [.totalFiles total]) := by
  refine ⟨?_, ?_, ?_, ?_, ?_⟩
  · intro st rest; rfl
  · intro st ds rest h
    rw [getdentsLoop, if_neg h]
  · intro st rest; rfl
  · intro inp p po h1 h2 h3 h4 h5
    rw [mainModel_run h1 h2 h3, mainAfterChecks_enumErr h4 h5]
  · intro inp p po t total h1 h2 h3 h4 h5
    rw [mainModel_run h1 h2 h3, mainAfterChecks_enum h4 h5]
    have hnt := walkExec_no_totalFiles po inp.progressEnv.isSome inp.fail
      (twalkActions t) inp.fs 0
    rcases hw : walkExec po inp.progressEnv.isSome inp.fail (twalkActions t) inp.fs 0
      with ⟨out, wmsgs, fs2, cnt, ab⟩
    rw [hw] at hnt
    simp only at hnt
    have hfilter : wmsgs.filter isTotalMsg = [] :=
      List.filter_eq_nil_iff.mpr fun m hm => by
        rw [isTotalMsg_false (hnt m hm)]; exact Bool.false_ne_true
    cases ab with
    | true =>
      constructor
      · rfl
      · show ([Msg.totalFiles total, Msg.performing po] ++ wmsgs).filter isTotalMsg = _
        rw [List.filter_append, hfilter]
        rfl
    | false =>
      constructor
      · rfl
      · show (([Msg.totalFiles total, Msg.performing po] ++ wmsgs) ++ [Msg.doneMsg]).filter
          isTotalMsg = _
        rw [List.filter_append, List.filter_append, hfilter]
        rfl

/-- C7 witness: the concrete two-batch report-mode run reports
`Total files: 2` first and exactly once. -/
theorem claim_C7_witness :
    (mainModel inpReport).stderrMsgs.head? = some (.totalFiles 2) ∧
    (mainModel inpReport).stderrMsgs.filter isTotalMsg = [.totalFiles 2] :=
  claim_C7.2.2.2.2 inpReport "/d" true treeReport 2 rfl (by decide) rfl rfl rfl

/-- C8 counterexample: in the run over a duplicated record the walk visits
one node, so the final count of visited entries is 1, yet no stderr
message reports that count — the whole stderr stream is the pre-walk
`Total files: 2` line, the mode announcement, and the bare completion
notice, none of which carries the value 1. -/
theorem claim_C8_counterexample :
    (mainModel inpDup).delete_count = 1 ∧
    (mainModel inpDup).stderrMsgs = [.totalFiles 2, .performing true, .doneMsg] ∧
    (∀ m ∈ (mainModel inpDup).stderrMsgs, m ≠ .totalFiles 1 ∧ m ≠ .progressMajor 1) := by
  decide

/-- C8 (amended): in either mode, after the walk has visited every index
node (in destructive mode, every unlink having succeeded) the executor
emits the fixed completion notice `Done` as its last stderr message — it
does not re-report the visited-entry count — exits 0, and `delete_count`
ends at the number of walked names. -/
theorem claim_C8_amended (inp : Input) (p : String) (po : Bool) (t : Tree) (total : Nat)
    (hargv : inp.argv1 = some p) (habs : p.data.head? = some '/')
    (hmode : parseDeleteMode inp.deleteEnv = .ok po) (hsys : inp.sysOk = true)
    (henum : getdentsLoop (.nil, 0) inp.batches = .ok (t, total))
    (hok : po = true ∨ ∀ n ∈ twalkActions t, inp.fail n = false) :
    (mainModel inp).stderrMsgs.getLast? = some .doneMsg ∧
    (mainModel inp).exitCode = 0 ∧
    (mainModel inp).delete_count = (twalkActions t).length := by
  rw [mainModel_run hargv habs hmode, mainAfterChecks_enum hsys henum]
  cases po with
  | true =>
    rw [walkExec_print_eq]
    refine ⟨List.getLast?_concat _, rfl, ?_⟩
    show 0 + (twalkActions t).length = (twalkActions t).length
    omega
  | false =>
    have hfail : ∀ n ∈ twalkActions t, inp.fail n = false := by
      rcases hok with h | h
      · exact absurd h (by decide)
      · exact h
    rw [walkExec_delete_ok inp.progressEnv.isSome inp.fail (twalkActions t) inp.fs 0 hfail]
    refine ⟨List.getLast?_concat _, rfl, ?_⟩
    show 0 + (twalkActions t).length = (twalkActions t).length
    omega

/-- C8 witness: the concrete destructive run over `"a"` and `"b"` with
every unlink succeeding ends its stderr with `Done`, exits 0, and counted
both visited nodes. -/
theorem claim_C8_amended_witness :
    (mainModel inpDeleteOk).stderrMsgs.getLast? = some .doneMsg ∧
    (mainModel inpDeleteOk).exitCode = 0 ∧
    (mainModel inpDeleteOk).delete_count = (twalkActions treeDelete).length :=
  claim_C8_amended inpDeleteOk "/d" false treeDelete 2 rfl (by decide)
    rfl rfl rfl (Or.inr (by decide))

/-- C9: report mode is deterministic — two runs over the same sequence of
enumerated records produce identical stdout, whatever their progress
setting, path, filesystem view or unlink oracle, because stdout depends
only on the record sequence. -/
theorem claim_C9 (inp1 inp2 : Input) (p1 p2 : String)
    (h1 : inp1.argv1 = some p1) (hp1 : p1.data.head? = some '/')
    (h2 : inp2.argv1 = some p2) (hp2 : p2.data.head? = some '/')
    (hm1 : inp1.deleteEnv = none) (hm2 : inp2.deleteEnv = none)
    (hs1 : inp1.sysOk = true) (hs2 : inp2.sysOk = true)
    (hb : inp1.batches = inp2.batches) :
    (mainModel inp1).stdoutLines = (mainModel inp2).stdoutLines := by
  cases he : getdentsLoop (Tree.nil, 0) inp1.batches with
  | error u =>
    cases u
    have hpo1 : parseDeleteMode inp1.deleteEnv = .ok true := by rw [hm1]; rfl
    have hpo2 : parseDeleteMode inp2.deleteEnv = .ok true := by rw [hm2]; rfl
    rw [mainModel_run h1 hp1 hpo1, mainModel_run h2 hp2 hpo2,
      mainAfterChecks_enumErr hs1 he, mainAfterChecks_enumErr hs2 (hb ▸ he)]
  | ok st =>
    obtain ⟨t, total⟩ := st
    have he2 : getdentsLoop (Tree.nil, 0) inp2.batches = .ok (t, total) := hb ▸ he
    rw [mainModel_report h1 hp1 hm1 hs1 he, mainModel_report h2 hp2 hm2 hs2 he2]

/-- C9 witness: the two concrete report-mode runs over the same batches,
differing in path, progress setting, filesystem view and unlink oracle,
print the same stdout. -/
theorem claim_C9_witness :
    (mainModel inpReport).stdoutLines = (mainModel inpReport2).stdoutLines :=
  claim_C9 inpReport inpReport2 "/d" "/e" rfl (by decide) rfl (by decide)
    rfl rfl rfl rfl rfl

/-- C10: inserting an already-present name into a well-formed index finds
the existing node and changes nothing, while `totalfiles` is incremented
for every regular-file record regardless; hence on the duplicated-record
run the reported total (2) strictly exceeds the single printed name. -/
theorem claim_C10 :
    (∀ t n, isBST t = true → memT t n = true → tsearch t n = t) ∧
    (∀ (ds : List linux_dirent) (st : Tree × Nat),
      (ds.foldl processDent st).2 = st.2 + ds.countP (fun d => decide (keptRecord d))) ∧
    (mainModel inpDup).stderrMsgs.head? = some (.totalFiles 2) ∧
    (mainModel inpDup).stdoutLines.length = 1 := by
  refine ⟨?_, ?_, by decide, by decide⟩
  · intro t n h1 h2
    exact tsearch_mem_unchanged h1 h2
  · intro ds st
    exact foldl_processDent_count ds st

/-- C10 witness: re-inserting `"a"` into the singleton index at `"a"`
returns it unchanged. -/
theorem claim_C10_witness :
    tsearch (Tree.node Tree.nil "a" Tree.nil) "a" = Tree.node Tree.nil "a" Tree.nil :=
  claim_C10.1 (Tree.node Tree.nil "a" Tree.nil) "a" (by decide) (by decide)

end Dentls
